import Mathlib

/-!
Pintity `log2.c`: the modulus-37 bit hash and its driver.

A shallow embedding of `src/log2.c`.  Machine integers are mathematical
integers with the reductions of the C abstract machine written out:
`uint32_t` values are naturals below `2^32`, `int32_t` values are integers in
`[-2^31, 2^31)`, `size_t` values are naturals below `2^SIZE_BITS`.
The remainder operator is fallible (a zero divisor has no result), so the
embedded function returns an `Option`.
-/

namespace Log2

/-! ## Machine integer conversions -/

/-- Conversion of an integer value to `uint32_t`: reduction modulo `2^32`. -/
def to_uint32 (v : Int) : Nat := (v % 4294967296).toNat

/-- Conversion of an integer value to `int32_t`, wrapping around modulo `2^32`
into `[-2^31, 2^31)`. -/
def to_int32 (v : Int) : Int := (v + 2147483648) % 4294967296 - 2147483648

/-- Width in bits of `size_t` (an LP64 target). -/
def SIZE_BITS : Nat := 64

/-- Conversion of an unsigned value to `size_t`: reduction modulo `2^SIZE_BITS`. -/
def to_size_t (v : Nat) : Nat := v % 2 ^ SIZE_BITS

/-- The operator `%` on two `uint32_t` operands: no result for a zero divisor,
otherwise the remainder, held in a `uint32_t`. -/
def urem32 (a b : Nat) : Option Nat :=
  if b = 0 then none else some ((a % b) % 4294967296)

/-- The operator `<<` on two `int` operands, the result wrapped into `int32_t`. -/
def shl_int32 (a n : Int) : Int := to_int32 (a * 2 ^ n.toNat)

/-! ## The program -/

/-- `#define LOG2_MAGIC 37`: an `int` constant. -/
def LOG2_MAGIC : Int := 37

/-- `size_t bit_log2(uint32_t bit) { return bit % LOG2_MAGIC; }`:
the `int` constant is converted to `uint32_t` by the usual arithmetic
conversions, the remainder is taken in `uint32_t`, and the result is converted
to the return type `size_t`. -/
def bit_log2 (bit : Nat) : Option Nat :=
  (urem32 bit (to_uint32 LOG2_MAGIC)).map to_size_t

/-- The observable state of a run of `main`: the arguments passed to
`bit_log2` so far, in call order, and the characters written to standard
output so far. -/
structure Run where
  calls : List Nat
  stdout : String
deriving DecidableEq

/-- The effect of `printf("%zu\n", v)`: the decimal digits of `v` followed by
a newline. -/
def printf_zu (v : Nat) : String := Nat.repr v ++ "\n"

/-- The loop `for (int32_t i = 0; i < 32; i++) printf("%zu\n", bit_log2(1 << i));`
entered with loop variable `i` in state `s`.  The argument `1 << i` is an
`int`, converted to the `uint32_t` parameter at the call. -/
def main_loop (i : Int) (s : Run) : Option Run :=
  if i < 32 then
    let arg := to_uint32 (shl_int32 1 i)
    match bit_log2 arg with
    | none => none
    | some r =>
      main_loop (to_int32 (i + 1)) ⟨s.calls ++ [arg], s.stdout ++ printf_zu r⟩
  else some s
termination_by (32 - i).toNat
decreasing_by
  simp only [to_int32]
  omega

/-- `void main(void)`: the loop started at `i = 0` with nothing written yet. -/
def main : Option Run := main_loop 0 ⟨[], ""⟩

/-- The state of the abstract machine that surrounds a call made by the
driver: the loop variable `i` of `main` and the run so far (the calls made and
the characters written to standard output).  `log2.c` declares no object with
static storage, so there is nothing else a callee could read or write. -/
structure Machine where
  i : Int
  run : Run

/-- The function `bit_log2` as a computation in the machine state: the body
`return bit % LOG2_MAGIC;` is a single `return` statement whose expression
mentions the parameter `bit` and the constant only, so the computation performs
no read and no write of the state, fails exactly when the remainder does, and
returns the remainder converted to `size_t`. -/
def bit_log2_st (bit : Nat) : StateT Machine Option Nat := do
  let r ← (urem32 bit (to_uint32 LOG2_MAGIC) : Option Nat)
  return to_size_t r

/-! ## Reading the output -/

/-- Splits a character stream into its newline-terminated lines; `cur` holds
the characters of the line being read, last character first.  Characters after
the last newline form a final line when there are any. -/
def split_lines : List Char → List Char → List String
  | [], cur => if cur = [] then [] else [String.mk cur.reverse]
  | c :: cs, cur =>
    if c = Char.ofNat 10 then String.mk cur.reverse :: split_lines cs []
    else split_lines cs (c :: cur)

/-- The lines of an output stream. -/
def output_lines (out : String) : List String := split_lines out.data []

/-- What `main` writes when its `i`-th line carries the value `f i`. -/
def rendered (f : Nat → Nat) : Nat → Nat → String
  | _, 0 => ""
  | i, n + 1 => printf_zu (f i) ++ rendered f (i + 1) n

/-! ## Shared lemmas -/

theorem to_uint32_LOG2_MAGIC : to_uint32 LOG2_MAGIC = 37 := by decide

theorem bit_log2_eq (bit : Nat) : bit_log2 bit = some (bit % 37) := by
  have h1 : bit % 37 < 37 := Nat.mod_lt _ (by decide)
  have h2 : bit % 37 % 4294967296 = bit % 37 := Nat.mod_eq_of_lt (by omega)
  have h3 : bit % 37 % 2 ^ SIZE_BITS = bit % 37 :=
    Nat.mod_eq_of_lt (by simp only [SIZE_BITS]; omega)
  simp [bit_log2, to_uint32_LOG2_MAGIC, urem32, to_size_t, h2, h3]

theorem bit_log2_st_run (bit : Nat) (m : Machine) :
    (bit_log2_st bit).run m = (bit_log2 bit).map (fun r => (r, m)) := by
  cases h : urem32 bit (to_uint32 LOG2_MAGIC) with
  | none => simp [bit_log2_st, bit_log2, h, StateT.run, bind, StateT.bind, liftM, monadLift,
      MonadLift.monadLift, StateT.lift]
  | some r => simp [bit_log2_st, bit_log2, h, StateT.run, bind, StateT.bind, liftM, monadLift,
      MonadLift.monadLift, StateT.lift, pure, StateT.pure]

theorem main_loop_call (i : Int) (s : Run) (h : i < 32) :
    main_loop i s =
      match (bit_log2_st (to_uint32 (shl_int32 1 i))).run ⟨i, s⟩ with
      | none => none
      | some (r, m) =>
        main_loop (to_int32 (m.i + 1))
          ⟨m.run.calls ++ [to_uint32 (shl_int32 1 i)], m.run.stdout ++ printf_zu r⟩ := by
  rw [main_loop]
  simp only [h, if_true, bit_log2_st_run, bit_log2_eq, Option.map]

theorem shl_arg (n : Nat) (h : n < 32) : to_uint32 (shl_int32 1 (n : Int)) = 2 ^ n := by
  interval_cases n <;> decide

theorem to_int32_succ (n : Nat) (h : n < 32) :
    to_int32 ((n : Int) + 1) = ((n + 1 : Nat) : Int) := by
  simp only [to_int32]
  omega

theorem main_loop_done (s : Run) : main_loop 32 s = some s := by
  rw [main_loop]
  simp

theorem main_loop_step (n : Nat) (h : n < 32) (s : Run) :
    main_loop (n : Int) s
      = main_loop ((n + 1 : Nat) : Int)
          ⟨s.calls ++ [2 ^ n], s.stdout ++ printf_zu (2 ^ n % 37)⟩ := by
  have hlt : (n : Int) < 32 := by omega
  rw [main_loop]
  simp only [hlt, if_true, shl_arg n h, bit_log2_eq, to_int32_succ n h]

theorem main_loop_run (m : Nat) : ∀ (n : Nat) (s : Run), n + m = 32 →
    main_loop (n : Int) s
      = some ⟨s.calls ++ (List.range' n m).map (fun j => 2 ^ j),
              s.stdout ++ rendered (fun j => 2 ^ j % 37) n m⟩ := by
  induction m with
  | zero =>
    intro n s h
    have hn : n = 32 := by omega
    subst hn
    have hd : main_loop ((32 : Nat) : Int) s = some s := main_loop_done s
    rw [hd]
    cases s
    simp [rendered]
  | succ m ih =>
    intro n s h
    rw [main_loop_step n (by omega) s, ih (n + 1) _ (by omega)]
    simp [rendered, List.range', String.append_assoc]

theorem main_eq :
    main = some ⟨(List.range' 0 32).map (fun j => 2 ^ j),
                 rendered (fun j => 2 ^ j % 37) 0 32⟩ := by
  have h := main_loop_run 32 0 ⟨[], ""⟩ rfl
  simpa [main] using h

theorem pow2_mod_injective_fin :
    ∀ a b : Fin 32, 2 ^ a.val % 37 = 2 ^ b.val % 37 → a = b := by
  decide

theorem pow2_mod_injective (k1 k2 : Nat) (h1 : k1 ≤ 31) (h2 : k2 ≤ 31)
    (h : 2 ^ k1 % 37 = 2 ^ k2 % 37) : k1 = k2 := by
  have hfin := pow2_mod_injective_fin ⟨k1, by omega⟩ ⟨k2, by omega⟩ h
  exact congrArg Fin.val hfin

/-! ## The hash on powers of two -/

/-- C1 (evaluation of the code): for every exponent `k` in `[0,31]` the call
`bit_log2(2^k)` returns the remainder `2^k mod 37`, and that remainder is never
the exponent `k` itself; at `k = 0` the result is 1, not 0. -/
theorem bit_log2_pow2_never_exponent :
    (∀ k : Fin 32, bit_log2 (2 ^ k.val) = some (2 ^ k.val % 37) ∧
        bit_log2 (2 ^ k.val) ≠ some k.val) ∧
    bit_log2 (2 ^ 0) = some 1 := by
  decide

/-- C2: the hash is injective on the powers of two of a 32-bit word: for
exponents `k1`, `k2` in `[0,31]`, equal results of `bit_log2` on `2^k1` and
`2^k2` force `k1 = k2`, and likewise equal remainders modulo 37. -/
theorem bit_log2_pow2_injective (k1 k2 : Nat) (h1 : k1 ≤ 31) (h2 : k2 ≤ 31) :
    (bit_log2 (2 ^ k1) = bit_log2 (2 ^ k2) → k1 = k2) ∧
    (2 ^ k1 % 37 = 2 ^ k2 % 37 → k1 = k2) := by
  refine ⟨fun h => ?_, pow2_mod_injective k1 k2 h1 h2⟩
  rw [bit_log2_eq, bit_log2_eq] at h
  exact pow2_mod_injective k1 k2 h1 h2 (Option.some.inj h)

theorem bit_log2_pow2_injective_witness :
    (7 : Nat) ≤ 31 ∧ (7 : Nat) ≤ 31 ∧
    ((bit_log2 (2 ^ 7) = bit_log2 (2 ^ 7) → 7 = 7) ∧
     (2 ^ 7 % 37 = 2 ^ 7 % 37 → 7 = 7)) :=
  ⟨by decide, by decide, bit_log2_pow2_injective 7 7 (by decide) (by decide)⟩

/-! ## The hash on arbitrary 32-bit words -/

/-- C3: for every 32-bit unsigned input the result of `bit_log2` is the exact
mathematical remainder of the input modulo 37: the `uint32_t` remainder and
its conversion to `size_t` lose nothing, so the machine result and the
unbounded-integer remainder coincide. -/
theorem bit_log2_exact_remainder (bit : Nat) (_hbit : bit < 2 ^ 32) :
    bit_log2 bit = some (bit % 37) ∧
    urem32 bit (to_uint32 LOG2_MAGIC) = some (bit % 37) ∧
    to_size_t (bit % 37) = bit % 37 ∧
    ((bit % 37 : Nat) : Int) = (bit : Int) % LOG2_MAGIC := by
  have hb := bit_log2_eq bit
  have hlt : bit % 37 < 37 := Nat.mod_lt _ (by decide)
  have hu : urem32 bit (to_uint32 LOG2_MAGIC) = some (bit % 37) := by
    have h2 : bit % 37 % 4294967296 = bit % 37 := Nat.mod_eq_of_lt (by omega)
    simp [to_uint32_LOG2_MAGIC, urem32, h2]
  have hs : to_size_t (bit % 37) = bit % 37 := by
    rw [bit_log2, hu] at hb
    exact Option.some.inj hb
  exact ⟨hb, hu, hs, by simp [LOG2_MAGIC]⟩

theorem bit_log2_exact_remainder_witness :
    (4294967295 : Nat) < 2 ^ 32 ∧
    (bit_log2 4294967295 = some (4294967295 % 37) ∧
     urem32 4294967295 (to_uint32 LOG2_MAGIC) = some (4294967295 % 37) ∧
     to_size_t (4294967295 % 37) = 4294967295 % 37 ∧
     ((4294967295 % 37 : Nat) : Int) = ((4294967295 : Nat) : Int) % LOG2_MAGIC) :=
  ⟨by decide, bit_log2_exact_remainder 4294967295 (by decide)⟩

/-- C4: for every 32-bit unsigned input `x` the call `bit_log2(x)` returns a
value `r` with `0 ≤ r ≤ LOG2_MAGIC - 1`, and `LOG2_MAGIC - 1 = 36`. -/
theorem bit_log2_bounded (x : Nat) (_hx : x < 2 ^ 32) :
    ∃ r, bit_log2 x = some r ∧ (0 : Int) ≤ (r : Int) ∧
      (r : Int) ≤ LOG2_MAGIC - 1 ∧ LOG2_MAGIC - 1 = 36 := by
  have hlt : x % 37 < 37 := Nat.mod_lt _ (by decide)
  refine ⟨x % 37, bit_log2_eq x, by omega, ?_, by decide⟩
  simp only [LOG2_MAGIC]
  omega

theorem bit_log2_bounded_witness :
    (3 : Nat) < 2 ^ 32 ∧
    ∃ r, bit_log2 3 = some r ∧ (0 : Int) ≤ (r : Int) ∧
      (r : Int) ≤ LOG2_MAGIC - 1 ∧ LOG2_MAGIC - 1 = 36 :=
  ⟨by decide, bit_log2_bounded 3 (by decide)⟩

/-- C5: `bit_log2` returns a value for every 32-bit unsigned input, in
particular for 0 and for `2^32 - 1`; the remainder operation has no result only
for a zero divisor, and the divisor, `LOG2_MAGIC` converted to `uint32_t`, is
37, which is not zero. -/
theorem bit_log2_total (x : Nat) (_hx : x < 2 ^ 32) :
    (bit_log2 x).isSome = true ∧
    bit_log2 0 = some 0 ∧
    bit_log2 (2 ^ 32 - 1) = some 6 ∧
    (∀ a b : Nat, urem32 a b = none ↔ b = 0) ∧
    to_uint32 LOG2_MAGIC = 37 ∧ to_uint32 LOG2_MAGIC ≠ 0 := by
  refine ⟨by simp [bit_log2_eq], by decide, by decide, ?_, by decide, by decide⟩
  intro a b
  by_cases hb : b = 0 <;> simp [urem32, hb]

theorem bit_log2_total_witness :
    (0 : Nat) < 2 ^ 32 ∧
    ((bit_log2 0).isSome = true ∧
     bit_log2 0 = some 0 ∧
     bit_log2 (2 ^ 32 - 1) = some 6 ∧
     (∀ a b : Nat, urem32 a b = none ↔ b = 0) ∧
     to_uint32 LOG2_MAGIC = 37 ∧ to_uint32 LOG2_MAGIC ≠ 0) :=
  ⟨by decide, bit_log2_total 0 (by decide)⟩

/-! ## The driver -/

/-- C6 (evaluation of the code): `main` terminates having written exactly 32
lines, and they are the decimal renderings of `2^i mod 37` for `i = 0..31`, that
is 1, 2, 4, 8, 16, 32, 27, ...; line 0 is `1` and line 31 is `22`, so the lines
are not the sequence 0, 1, ..., 31. -/
theorem main_output_lines :
    ∃ s, main = some s ∧
      s.stdout = "1\n2\n4\n8\n16\n32\n27\n17\n34\n31\n25\n13\n26\n15\n30\n23\n9\n18\n36\n35\n33\n29\n21\n5\n10\n20\n3\n6\n12\n24\n11\n22\n" ∧
      (output_lines s.stdout).length = 32 ∧
      output_lines s.stdout = (List.range 32).map (fun i => Nat.repr (2 ^ i % 37)) ∧
      (output_lines s.stdout)[0]? = some "1" ∧
      (output_lines s.stdout)[31]? = some "22" ∧
      output_lines s.stdout ≠ (List.range 32).map Nat.repr := by
  refine ⟨_, main_eq, ?_, ?_, ?_, ?_, ?_, ?_⟩ <;> decide

/-- C7: for every 32-bit unsigned input `x`, evaluations of `bit_log2(x)`
started in any two machine states return the same value and leave the state
they started in untouched; in particular two successive evaluations agree.  The
result is the one of the function of `x` alone, `bit_log2 x`, which is a
single value. -/
theorem bit_log2_deterministic (x : Nat) (_hx : x < 2 ^ 32) :
    (∀ m1 m2 : Machine, ∃ r,
        (bit_log2_st x).run m1 = some (r, m1) ∧
        (bit_log2_st x).run m2 = some (r, m2)) ∧
    (∀ (m m1 m2 : Machine) (r1 r2 : Nat),
        (bit_log2_st x).run m = some (r1, m1) →
        (bit_log2_st x).run m1 = some (r2, m2) →
        r1 = r2 ∧ m1 = m ∧ m2 = m) ∧
    (∀ m : Machine, (bit_log2_st x).run m = (bit_log2 x).map (fun r => (r, m))) ∧
    (∃! r, bit_log2 x = some r) := by
  have hrun : ∀ m : Machine, (bit_log2_st x).run m = some (x % 37, m) := by
    intro m
    rw [bit_log2_st_run, bit_log2_eq]
    rfl
  refine ⟨fun m1 m2 => ⟨x % 37, hrun m1, hrun m2⟩, ?_, bit_log2_st_run x,
    ⟨x % 37, bit_log2_eq x, ?_⟩⟩
  · intro m m1 m2 r1 r2 h1 h2
    rw [hrun] at h1 h2
    have e1 := Option.some.inj h1
    have e2 := Option.some.inj h2
    have a1 := congrArg Prod.fst e1
    have b1 := congrArg Prod.snd e1
    have a2 := congrArg Prod.fst e2
    have b2 := congrArg Prod.snd e2
    simp only at a1 b1 a2 b2
    exact ⟨a1.symm.trans a2, b1.symm, b2.symm.trans b1.symm⟩
  · intro r hr
    rw [bit_log2_eq] at hr
    exact (Option.some.inj hr).symm

theorem bit_log2_deterministic_witness :
    (1000000 : Nat) < 2 ^ 32 ∧
    ((∀ m1 m2 : Machine, ∃ r,
        (bit_log2_st 1000000).run m1 = some (r, m1) ∧
        (bit_log2_st 1000000).run m2 = some (r, m2)) ∧
     (∀ (m m1 m2 : Machine) (r1 r2 : Nat),
        (bit_log2_st 1000000).run m = some (r1, m1) →
        (bit_log2_st 1000000).run m1 = some (r2, m2) →
        r1 = r2 ∧ m1 = m ∧ m2 = m) ∧
     (∀ m : Machine,
        (bit_log2_st 1000000).run m = (bit_log2 1000000).map (fun r => (r, m))) ∧
     (∃! r, bit_log2 1000000 = some r)) :=
  ⟨by decide, bit_log2_deterministic 1000000 (by decide)⟩

/-- C8 (evaluation of the code): on the powers of two `2^5`, `2^8`, `2^18`,
`2^19` and `2^20` the call `bit_log2` returns 32, 34, 36, 35 and 33, values
above 31 that do not fit in 5 bits; the largest result on a power of two is 36. -/
theorem bit_log2_pow2_exceeds_five_bits :
    bit_log2 (2 ^ 5) = some 32 ∧ bit_log2 (2 ^ 8) = some 34 ∧
    bit_log2 (2 ^ 18) = some 36 ∧ bit_log2 (2 ^ 19) = some 35 ∧
    bit_log2 (2 ^ 20) = some 33 ∧ ¬ (32 < 2 ^ 5) ∧
    ∀ k : Fin 32, bit_log2 (2 ^ k.val) = some (2 ^ k.val % 37) ∧
      (31 < 2 ^ k.val % 37 ↔ k.val ∈ [5, 8, 18, 19, 20]) := by
  decide

/-- C9: for every `i` in `[0,31]` the argument the driver passes to `bit_log2`,
the `int` value `1 << i` (wrapping) converted to `uint32_t`, is `2^i`; for
`i = 31` the `int` value is `-2^31` and the converted argument is 2147483648;
`main` makes exactly 32 calls, the `i`-th with argument `2^i`, in increasing
order of `i`. -/
theorem main_call_arguments (i : Nat) (hi : i ≤ 31) :
    to_uint32 (shl_int32 1 (i : Int)) = 2 ^ i ∧
    shl_int32 1 31 = -2147483648 ∧
    to_uint32 (shl_int32 1 31) = 2147483648 ∧
    ∃ s, main = some s ∧ s.calls.length = 32 ∧ s.calls[i]? = some (2 ^ i) ∧
      s.calls = (List.range 32).map (fun j => 2 ^ j) ∧
      s.calls = (List.range 32).map (fun j => to_uint32 (shl_int32 1 (j : Int))) := by
  refine ⟨shl_arg i (by omega), by decide, by decide, _, main_eq, by decide, ?_,
    by decide, by decide⟩
  interval_cases i <;> decide

theorem main_call_arguments_witness :
    (31 : Nat) ≤ 31 ∧
    (to_uint32 (shl_int32 1 ((31 : Nat) : Int)) = 2 ^ 31 ∧
     shl_int32 1 31 = -2147483648 ∧
     to_uint32 (shl_int32 1 31) = 2147483648 ∧
     ∃ s, main = some s ∧ s.calls.length = 32 ∧ s.calls[31]? = some (2 ^ 31) ∧
       s.calls = (List.range 32).map (fun j => 2 ^ j) ∧
       s.calls = (List.range 32).map (fun j => to_uint32 (shl_int32 1 (j : Int)))) :=
  ⟨by decide, main_call_arguments 31 (by decide)⟩

/-! ## Small inputs -/

/-- C10: below the modulus `bit_log2` is the identity: for every input `x`
with `0 ≤ x < 37` the result is `x`, and in particular for every `k` in `[0,5]`
the result on `2^k` is `2^k`. -/
theorem bit_log2_identity_below_modulus (x k : Nat) (hx : x < 37) (hk : k ≤ 5) :
    bit_log2 x = some x ∧ bit_log2 (2 ^ k) = some (2 ^ k) := by
  have hp : 2 ^ k < 37 := by
    interval_cases k <;> decide
  rw [bit_log2_eq, bit_log2_eq, Nat.mod_eq_of_lt hx, Nat.mod_eq_of_lt hp]
  exact ⟨rfl, rfl⟩

theorem bit_log2_identity_below_modulus_witness :
    (36 : Nat) < 37 ∧ (5 : Nat) ≤ 5 ∧
    (bit_log2 36 = some 36 ∧ bit_log2 (2 ^ 5) = some (2 ^ 5)) :=
  ⟨by decide, by decide, bit_log2_identity_below_modulus 36 5 (by decide) (by decide)⟩

/-! ## Zero and inputs that are not powers of two -/

theorem pow2_mod_pos_fin : ∀ k : Fin 32, 1 ≤ 2 ^ k.val % 37 := by
  decide

theorem pow2_add_magic_fin :
    ∀ k j : Fin 32, 2 ^ k.val + 37 < 4294967296 ∧ 2 ^ k.val + 37 ≠ 2 ^ j.val := by
  decide

/-- C11: zero is told apart from every power of two: `bit_log2(0) = 0`, and
for every `k` in `[0,31]` the result of `bit_log2(2^k)` lies in `[1,36]`, so it
differs from `bit_log2(0)`. -/
theorem bit_log2_zero_distinct (k : Nat) (hk : k ≤ 31) :
    bit_log2 0 = some 0 ∧
    (∃ r, bit_log2 (2 ^ k) = some r ∧ 1 ≤ r ∧ r ≤ 36) ∧
    bit_log2 0 ≠ bit_log2 (2 ^ k) := by
  have hpos : 1 ≤ 2 ^ k % 37 := pow2_mod_pos_fin ⟨k, by omega⟩
  have hlt : 2 ^ k % 37 < 37 := Nat.mod_lt _ (by decide)
  refine ⟨bit_log2_eq 0, ⟨2 ^ k % 37, bit_log2_eq _, hpos, by omega⟩, ?_⟩
  rw [bit_log2_eq, bit_log2_eq]
  intro h
  have h0 : 0 % 37 = 2 ^ k % 37 := Option.some.inj h
  omega

theorem bit_log2_zero_distinct_witness :
    (18 : Nat) ≤ 31 ∧
    (bit_log2 0 = some 0 ∧
     (∃ r, bit_log2 (2 ^ 18) = some r ∧ 1 ≤ r ∧ r ≤ 36) ∧
     bit_log2 0 ≠ bit_log2 (2 ^ 18)) :=
  ⟨by decide, bit_log2_zero_distinct 18 (by decide)⟩

/-- C12: the result does not certify a power of two: for every `k` in `[0,31]`
there is a 32-bit unsigned `x`, namely `2^k + 37`, that is none of the powers
`2^j` with `j` in `[0,31]` and has `bit_log2(x) = bit_log2(2^k)`; for example
`bit_log2(38) = bit_log2(1) = 1`. -/
theorem bit_log2_not_power_certificate (k : Nat) (hk : k ≤ 31) :
    (∃ x, x < 2 ^ 32 ∧ (∀ j, j ≤ 31 → x ≠ 2 ^ j) ∧
        bit_log2 x = bit_log2 (2 ^ k)) ∧
    bit_log2 38 = bit_log2 1 ∧ bit_log2 1 = some 1 ∧
    (∀ j, j ≤ 31 → 38 ≠ 2 ^ j) := by
  have h38 : ∀ j, j ≤ 31 → 38 ≠ 2 ^ j := fun j hj =>
    (pow2_add_magic_fin ⟨0, by decide⟩ ⟨j, by omega⟩).2
  refine ⟨⟨2 ^ k + 37, ?_, ?_, ?_⟩, by decide, by decide, h38⟩
  · exact (pow2_add_magic_fin ⟨k, by omega⟩ ⟨0, by decide⟩).1
  · intro j hj
    exact (pow2_add_magic_fin ⟨k, by omega⟩ ⟨j, by omega⟩).2
  · rw [bit_log2_eq, bit_log2_eq, Nat.add_mod_right]

theorem bit_log2_not_power_certificate_witness :
    (31 : Nat) ≤ 31 ∧
    ((∃ x, x < 2 ^ 32 ∧ (∀ j, j ≤ 31 → x ≠ 2 ^ j) ∧
        bit_log2 x = bit_log2 (2 ^ 31)) ∧
     bit_log2 38 = bit_log2 1 ∧ bit_log2 1 = some 1 ∧
     (∀ j, j ≤ 31 → 38 ≠ 2 ^ j)) :=
  ⟨by decide, bit_log2_not_power_certificate 31 (by decide)⟩

end Log2
